import Mathlib

/-!
Verification of the GELF writer library (Go sources `http_transport.go` and the
writer/codec file) against its natural-language specification.

Shallow embedding conventions:
* Byte buffers are `List Nat` (each entry one byte; byte values are irrelevant
  to the fragmentation claims, so no `% 256` normalisation is needed there).
* JSON is modelled at the value level: Go's `encoding/json` marshalling of a
  `map[string]interface{}` / struct is represented as an association list of
  key/value pairs.  Numbers are carried as rationals (`ℚ`); encoding writes
  them exactly (Go marshals ints and float64s exactly), and decoding applies
  `float64Round` — an exact rational embedding of IEEE-754 binary64
  round-to-nearest-even — to every number, because `json.Unmarshal` coerces
  every JSON number to a `float64`.  The byte-level parser of the Go standard
  library is treated as an oracle: a malformed input is the `none` case of
  `unmarshalMessage`.
* Go panics (failed type assertion, out-of-range string index, nil-pointer
  dereference, unknown-compression `panic(...)`) are explicit outcome
  constructors, distinct from a returned error.
* The UDP socket is modelled as reliable: `conn.Write` always writes the full
  buffer.  The trace of datagrams handed to the socket is returned alongside
  the outcome so that "no bytes written" style claims are expressible.
-/

set_option maxRecDepth 2048

set_option maxHeartbeats 1000000

/-! ## JSON values (value-level model of `encoding/json`) -/

/-- JSON value at the `encoding/json` boundary.  Numbers are carried as exact
rationals; the float64 coercion `json.Unmarshal` performs on the decode side
is applied explicitly by `parseNumber`/`float64Round` below. -/
inductive Json where
  | str (s : String)
  | num (q : ℚ)
  | bool (b : Bool)
  | null
deriving DecidableEq

/-! ## The Message entity (`Message` struct of the writer file) -/

/-- Model of the `Message` struct: fixed GELF fields plus the open extension
map `Extra` (`map[string]interface{}`, modelled as an association list in
iteration order). -/
structure Message where
  Version : String
  Host : String
  Short : String
  Full : String
  TimeUnix : ℚ
  Level : Int
  Facility : String
  File : String
  Line : Int
  Extra : List (String × Json)
deriving DecidableEq

/-- Zero value of the Go `Message` struct, the receiver state at the start of
`UnmarshalJSON`. -/
def Message.zero : Message :=
  ⟨"", "", "", "", 0, 0, "", "", 0, []⟩

/-- Truncation toward zero, the conversion Go applies in `int32(v.(float64))`
and `int(v.(float64))` for in-range integral values. -/
def goTruncToInt (q : ℚ) : Int :=
  if 0 ≤ q.num then ((q.num.natAbs / q.den : Nat) : Int)
  else -((q.num.natAbs / q.den : Nat) : Int)

/-- Fixed-field part of `Message.MarshalJSON`: `json.Marshal((*innerMessage)(m))`,
the struct fields in declaration order with their `json:"..."` tags (`Extra`
carries tag `json:"-"` and is omitted). -/
def fixedFields (m : Message) : List (String × Json) :=
  [("version", .str m.Version),
   ("host", .str m.Host),
   ("short_message", .str m.Short),
   ("full_message", .str m.Full),
   ("timestamp", .num m.TimeUnix),
   ("level", .num (m.Level : ℚ)),
   ("facility", .str m.Facility),
   ("file", .str m.File),
   ("line", .num (m.Line : ℚ))]

/-- Model of `Message.MarshalJSON`: the fixed-field object alone when the
extension map is empty, otherwise the splice `b[len(b)-1] = ','` +
`append(b, eb[1:])`, which at the value level is the union of the two key
lists. -/
def marshalJSON (m : Message) : List (String × Json) :=
  if m.Extra.length = 0 then fixedFields m
  else fixedFields m ++ m.Extra

/-- Reason a decode run aborts abnormally (a Go panic, not a returned error). -/
inductive PanicKind where
  | emptyKeyIndex
  | typeAssert
deriving DecidableEq

/-- Type assertion `v.(string)`: panics unless the value is a string. -/
def expectStr (v : Json) (f : String → Message) : Except PanicKind Message :=
  match v with
  | .str s => .ok (f s)
  | _ => .error .typeAssert

/-- Type assertion `v.(float64)`: `json.Unmarshal` decodes every JSON number
as `float64`, so this panics unless the value is a number. -/
def expectNum (v : Json) (f : ℚ → Message) : Except PanicKind Message :=
  match v with
  | .num q => .ok (f q)
  | _ => .error .typeAssert

/-- Body of the `for k, v := range i` loop of `Message.UnmarshalJSON`:
`k[0] == '_'` (an out-of-range panic when `k` is empty) routes the pair into
`Extra`; otherwise the switch on `k` assigns the matching fixed field through
a panicking type assertion; unmatched keys are ignored. -/
def applyKV (m : Message) (k : String) (v : Json) : Except PanicKind Message :=
  match k.data with
  | [] => .error .emptyKeyIndex
  | c :: _ =>
    if c = '_' then .ok { m with Extra := m.Extra ++ [(k, v)] }
    else if k = "version" then expectStr v fun s => { m with Version := s }
    else if k = "host" then expectStr v fun s => { m with Host := s }
    else if k = "short_message" then expectStr v fun s => { m with Short := s }
    else if k = "full_message" then expectStr v fun s => { m with Full := s }
    else if k = "timestamp" then expectNum v fun q => { m with TimeUnix := q }
    else if k = "level" then expectNum v fun q => { m with Level := goTruncToInt q }
    else if k = "facility" then expectStr v fun s => { m with Facility := s }
    else if k = "file" then expectStr v fun s => { m with File := s }
    else if k = "line" then expectNum v fun q => { m with Line := goTruncToInt q }
    else .ok m

/-- Iteration of the decode loop over the parsed object (one fixed
serialisation of the Go map iteration; the loop aborts at the first panic). -/
def unmarshalFields (m : Message) : List (String × Json) → Except PanicKind Message
  | [] => .ok m
  | (k, v) :: rest =>
    match applyKV m k v with
    | .error e => .error e
    | .ok m2 => unmarshalFields m2 rest

/-- Outcome of `Message.UnmarshalJSON` on raw bytes. -/
inductive DecodeOutcome where
  | ok (m : Message)
  | errReturn
  | panicked (k : PanicKind)
deriving DecidableEq

/-- Round-to-nearest-even of a non-negative rational to an integer: the
rounding `strconv.ParseFloat` applies to the scaled significand. -/
def rne (x : ℚ) : Int :=
  if x - (⌊x⌋ : ℚ) < 1/2 then ⌊x⌋
  else if 1/2 < x - (⌊x⌋ : ℚ) then ⌊x⌋ + 1
  else if ⌊x⌋ % 2 = 0 then ⌊x⌋ else ⌊x⌋ + 1

/-- Floor of the base-2 logarithm of a positive rational `a = n/d`:
`Nat.log2 n - Nat.log2 d` is either the floor or one above it, decided by
comparing `2^e0` against `n/d`. -/
def ratLog2Floor (a : ℚ) : Int :=
  if 0 ≤ (Nat.log2 a.num.natAbs : Int) - (Nat.log2 a.den : Int) then
    (if a.den * 2 ^ ((Nat.log2 a.num.natAbs : Int) - (Nat.log2 a.den : Int)).toNat ≤
        a.num.natAbs
     then (Nat.log2 a.num.natAbs : Int) - (Nat.log2 a.den : Int)
     else (Nat.log2 a.num.natAbs : Int) - (Nat.log2 a.den : Int) - 1)
  else
    (if a.den ≤
        a.num.natAbs * 2 ^ (-((Nat.log2 a.num.natAbs : Int) - (Nat.log2 a.den : Int))).toNat
     then (Nat.log2 a.num.natAbs : Int) - (Nat.log2 a.den : Int)
     else (Nat.log2 a.num.natAbs : Int) - (Nat.log2 a.den : Int) - 1)

/-- The IEEE-754 binary64 (Go `float64`) value nearest to `q`, as an exact
rational: |q| is rounded to the representable grid of spacing `2^(e-52)`
(`e = ⌊log2 |q|⌋`, 53 significant bits), floored at the subnormal spacing
`2^-1074`, with ties to even, and the sign restored.  This is the rounding
`strconv.ParseFloat` performs when `json.Unmarshal` decodes a JSON number
into `interface{}`.  (A number so large that ParseFloat overflows,
|q| ≥ ~2^1024, makes `json.Unmarshal` return an error instead; such inputs
are parse failures — the `none` case — and never reach this function in the
program.) -/
def float64Round (q : ℚ) : ℚ :=
  if q = 0 then 0
  else if q < 0 then
    -((rne (|q| * (2 : ℚ) ^ (-(max (ratLog2Floor |q| - 52) (-1074)))) : ℚ) *
      (2 : ℚ) ^ (max (ratLog2Floor |q| - 52) (-1074)))
  else
    (rne (|q| * (2 : ℚ) ^ (-(max (ratLog2Floor |q| - 52) (-1074)))) : ℚ) *
      (2 : ℚ) ^ (max (ratLog2Floor |q| - 52) (-1074))

/-- Coercion `json.Unmarshal` applies while building the
`map[string]interface{}`: every JSON number becomes a `float64`; all other
values are taken as they are. -/
def parseNumber (v : Json) : Json :=
  match v with
  | .num q => .num (float64Round q)
  | v => v

/-- Model of `Message.UnmarshalJSON`: `none` is a byte input that
`json.Unmarshal` rejects (its error is returned to the caller); `some fields`
is the parsed object, whose number values `json.Unmarshal` has coerced to
float64, processed by the key-routing loop starting from the zero
receiver. -/
def unmarshalMessage (parsed : Option (List (String × Json))) : DecodeOutcome :=
  match parsed with
  | none => .errReturn
  | some fields =>
    match unmarshalFields Message.zero (fields.map fun p => (p.1, parseNumber p.2)) with
    | .ok m => .ok m
    | .error e => .panicked e

/-! ## GELF chunking (`http_transport.go`, UDP side) -/

/-- Datagram capacity constant `ChunkSize = 1420`. -/
def ChunkSize : Nat := 1420

/-- Header length constant `chunkedHeaderLen = 12`. -/
def chunkedHeaderLen : Nat := 12

/-- Payload capacity per chunk, `chunkedDataLen = ChunkSize - chunkedHeaderLen`. -/
def chunkedDataLen : Nat := ChunkSize - chunkedHeaderLen

/-- Magic bytes `magicChunked = []byte{0x1e, 0x0f}`. -/
def magicChunked : List Nat := [0x1e, 0x0f]

/-- Model of `numChunks`: `1` if the buffer fits one datagram, otherwise
`len(b)/chunkedDataLen + 1` (Go integer division, which is floor on
non-negative values). -/
def numChunks (b : List Nat) : Nat :=
  if b.length ≤ ChunkSize then 1
  else b.length / chunkedDataLen + 1

/-- Abnormal results of `writeChunked`. -/
inductive ChunkError where
  | oversize (needed : Nat)
  | randShort (got : Nat)
  | leftover (n : Nat)
deriving DecidableEq

/-- The `for i := uint8(0); i < nChunks; i++` loop of `writeChunked`.  The
fuel argument counts the remaining iterations (`nChunks - i`); each iteration
frames `magic ∥ msgId ∥ i ∥ nChunks ∥ zBytes[off : off+chunkLen]` with
`chunkLen = min(chunkedDataLen, bytesLeft)` and `off = i*chunkedDataLen`, and
subtracts `chunkLen` from `bytesLeft`.  Returns the framed datagrams together
with the final `bytesLeft`. -/
def chunkLoop (zBytes msgId : List Nat) (nChunks : Nat) :
    Nat → Nat → Nat → List (List Nat) × Nat
  | 0, _, bytesLeft => ([], bytesLeft)
  | fuel + 1, i, bytesLeft =>
    let chunkLen := min chunkedDataLen bytesLeft
    let chunk := (zBytes.drop (i * chunkedDataLen)).take chunkLen
    let rest := chunkLoop zBytes msgId nChunks fuel (i + 1) (bytesLeft - chunkLen)
    ((magicChunked ++ msgId ++ [i, nChunks] ++ chunk) :: rest.1, rest.2)

/-- Model of `writeChunked`: rejects more than 255 chunks, requires the 8-byte
random message id (the `io.ReadFull(rand.Reader, msgId)` result is the
`msgId` parameter; a short read is `randShort`), runs the chunk loop, and
reports the `bytesLeft != 0` check that follows the loop.  The socket is
modelled as reliable, so the per-chunk short-write errors cannot fire. -/
def writeChunkedGo (zBytes msgId : List Nat) : Except ChunkError (List (List Nat)) :=
  let nChunksI := numChunks zBytes
  if 255 < nChunksI then .error (.oversize nChunksI)
  else if msgId.length ≠ 8 then .error (.randShort msgId.length)
  else
    let r := chunkLoop zBytes msgId nChunksI nChunksI 0 zBytes.length
    if r.2 ≠ 0 then .error (.leftover r.2) else .ok r.1

/-! ## UDP transport (`udpTransport.WriteMessage`) -/

/-- CompressType constant `CompressGzip = 0` (Go `iota`). -/
def CompressGzip : Int := 0

/-- CompressType constant `CompressZlib = 1`. -/
def CompressZlib : Int := 1

/-- CompressType constant `NoCompress = 2`. -/
def NoCompress : Int := 2

/-- Result of `udpTransport.WriteMessage`. -/
inductive UdpOutcome where
  | ok
  | configPanic (t : Int)
  | chunkFail (e : ChunkError)
deriving DecidableEq

/-- Model of `udpTransport.WriteMessage` after `json.Marshal` succeeded with
`mBytes`.  `gzipC`/`zlibC` are the (opaque, always-successful) compression
stages; `NoCompress` routes through `bufferedWriter`, leaving the bytes
unchanged; every other compression value hits the `default: panic(...)` arm
before anything is written.  Returns the outcome and the list of buffers
passed to `conn.Write`, in order. -/
def udpWriteMessage (gzipC zlibC : List Nat → List Nat) (ctype : Int)
    (mBytes msgId : List Nat) : UdpOutcome × List (List Nat) :=
  if ctype = CompressGzip ∨ ctype = CompressZlib ∨ ctype = NoCompress then
    let zBytes :=
      if ctype = CompressGzip then gzipC mBytes
      else if ctype = CompressZlib then zlibC mBytes
      else mBytes
    if 1 < numChunks zBytes then
      let nChunksI := numChunks zBytes
      if 255 < nChunksI then (.chunkFail (.oversize nChunksI), [])
      else if msgId.length ≠ 8 then (.chunkFail (.randShort msgId.length), [])
      else
        let r := chunkLoop zBytes msgId nChunksI nChunksI 0 zBytes.length
        if r.2 ≠ 0 then (.chunkFail (.leftover r.2), r.1) else (.ok, r.1)
    else (.ok, [zBytes])
  else (.configPanic ctype, [])

/-! ## Writer (`Writer.WriteMessage`) -/

/-- Wire-level events of one `Writer.WriteMessage` call.  Lock events are
included so that statements about mutual exclusion are expressible; the
`Writer` struct declares `mu sync.Mutex`, and any `w.mu.Lock()` /
`w.mu.Unlock()` in the source would appear here. -/
inductive WireEvent where
  | lockAcquire
  | lockRelease
  | datagram (bytes : List Nat)
deriving DecidableEq

/-- Model of `Writer.WriteMessage`, whose whole body is
`return w.Transport.WriteMessage(m)`: it delegates to the UDP transport and
performs no operation on `w.mu` (the field is never locked on this path). -/
def writerWriteMessage (gzipC zlibC : List Nat → List Nat) (ctype : Int)
    (mBytes msgId : List Nat) : UdpOutcome × List WireEvent :=
  let r := udpWriteMessage gzipC zlibC ctype mBytes msgId
  (r.1, r.2.map WireEvent.datagram)

/-! ## HTTP transport (`httpTransport.WriteMessage`) -/

/-- Result of `httpTransport.WriteMessage`.  `okReturn` records how many times
the response body was closed before returning. -/
inductive HttpOutcome where
  | marshalErr
  | okReturn (bodyCloses : Nat)
  | nilPanic
deriving DecidableEq

/-- Model of `httpTransport.WriteMessage`: if `json.Marshal` fails its error
is returned (no request is made); otherwise `w.client.Post` runs and the code
executes `response.Body.Close()` unconditionally.  Per the `net/http` client
contract, a non-nil error comes with a nil `response`, so the close on the
error path dereferences a nil pointer and panics. -/
def httpWriteMessage (marshalOk postOk : Bool) : HttpOutcome :=
  if marshalOk = false then .marshalErr
  else if postOk then .okReturn 1
  else .nilPanic

/-! ## Chunking lemmas -/

/-- Closed form of the chunk-writing loop: starting at index `i` with the
loop invariant `bytesLeft = b.length - i * chunkedDataLen`, `fuel` iterations
frame the consecutive `chunkedDataLen`-sized slices of `b`. -/
lemma chunkLoop_eq (b id : List Nat) (n : Nat) :
    ∀ fuel i : Nat,
      chunkLoop b id n fuel i (b.length - i * chunkedDataLen) =
        (((List.range fuel).map fun k =>
            magicChunked ++ id ++ [i + k, n] ++
              ((b.drop ((i + k) * chunkedDataLen)).take chunkedDataLen)),
         b.length - (i + fuel) * chunkedDataLen) := by
  intro fuel
  induction fuel with
  | zero => intro i; simp [chunkLoop]
  | succ f ih =>
    intro i
    have hc : chunkedDataLen = 1408 := rfl
    have htake : (b.drop (i * chunkedDataLen)).take
          (min chunkedDataLen (b.length - i * chunkedDataLen)) =
        (b.drop (i * chunkedDataLen)).take chunkedDataLen := by
      rw [List.take_eq_take, List.length_drop]
      omega
    have harg : b.length - i * chunkedDataLen -
          min chunkedDataLen (b.length - i * chunkedDataLen) =
        b.length - (i + 1) * chunkedDataLen := by
      rw [hc]
      omega
    simp only [chunkLoop]
    rw [htake, harg, ih (i + 1)]
    rw [List.range_succ_eq_map]
    simp only [List.map_cons, List.map_map, Prod.mk.injEq]
    constructor
    · simp only [List.cons.injEq]
      refine ⟨by simp, ?_⟩
      refine List.map_congr_left ?_
      intro k _
      have hik : i + 1 + k = i + (k + 1) := by omega
      simp only [Function.comp_apply, Nat.succ_eq_add_one, hik]
    · have hif : i + 1 + f = i + (f + 1) := by omega
      rw [hif]

/-- Concatenating the consecutive `c`-sized slices of `b` restores the first
`n * c` elements of `b`. -/
lemma range_map_take_join (c : Nat) (b : List Nat) :
    ∀ n : Nat,
      ((List.range n).map fun k => (b.drop (k * c)).take c).flatten = b.take (n * c) := by
  intro n
  induction n with
  | zero => simp
  | succ m ih =>
    rw [List.range_succ, List.map_append, List.flatten_append, ih]
    simp only [List.map_cons, List.map_nil, List.flatten_cons, List.flatten_nil,
      List.append_nil]
    rw [Nat.succ_mul, List.take_add]

/-- On the chunked path (`len(b) > ChunkSize`) `numChunks` is the Go integer
division `len(b)/chunkedDataLen + 1`. -/
lemma numChunks_of_big (b : List Nat) (hb : ChunkSize < b.length) :
    numChunks b = b.length / chunkedDataLen + 1 := by
  unfold numChunks
  rw [if_neg (by omega)]

/-- The chunk list that `writeChunked` frames and sends: the `k`-th datagram
is `magic ∥ msgId ∥ k ∥ numChunks ∥ slice k` (proved equal to the loop output
in `writeChunkedGo_eq`). -/
def gelfChunks (b id : List Nat) : List (List Nat) :=
  (List.range (numChunks b)).map fun k =>
    magicChunked ++ id ++ [k, numChunks b] ++
      ((b.drop (k * chunkedDataLen)).take chunkedDataLen)

/-- Whenever the payload exceeds one datagram, needs at most 255 chunks and
the message id has its 8 bytes, `writeChunked` succeeds and produces exactly
the `gelfChunks` chunk list. -/
lemma writeChunkedGo_eq (b id : List Nat) (hb : ChunkSize < b.length)
    (hn : numChunks b ≤ 255) (hid : id.length = 8) :
    writeChunkedGo b id = .ok (gelfChunks b id) := by
  have hloop := chunkLoop_eq b id (numChunks b) (numChunks b) 0
  simp only [Nat.zero_mul, Nat.sub_zero, Nat.zero_add] at hloop
  have hc : chunkedDataLen = 1408 := rfl
  have hcs : ChunkSize = 1420 := rfl
  have hnb : numChunks b = b.length / chunkedDataLen + 1 := numChunks_of_big b hb
  have hzero : b.length - numChunks b * chunkedDataLen = 0 := by
    rw [hnb, hc]
    rw [hc] at hnb
    omega
  unfold writeChunkedGo
  rw [if_neg (by omega), if_neg (by simp [hid]), hloop]
  simp only [hzero, ne_eq, not_true_eq_false, if_false, ite_false]
  simp only [gelfChunks, Nat.zero_add]

/-- Chunk count for a replicated payload above the single-datagram capacity. -/
lemma numChunks_replicate (n x : Nat) (h : ChunkSize < n) :
    numChunks (List.replicate n x) = n / chunkedDataLen + 1 := by
  rw [numChunks_of_big] <;> simp [List.length_replicate, h]

/-! ## Claims C1-C3: fragmentation -/

/-- C1 counterexample: the claim says the chunked path always produces
`ceil(L / 1408)` chunks, but for `L = 2816` (a payload above the
single-datagram capacity whose length is an exact multiple of 1408) the code
produces `2816/1408 + 1 = 3` chunks while `ceil(2816/1408) = 2`. -/
theorem chunk_count_ceil_counterexample :
    ChunkSize < (List.replicate 2816 0 : List Nat).length ∧
    Except.map List.length
      (writeChunkedGo (List.replicate 2816 0) (List.replicate 8 0)) = .ok 3 ∧
    (2816 + chunkedDataLen - 1) / chunkedDataLen = 2 := by
  have hb : ChunkSize < (List.replicate 2816 0 : List Nat).length := by
    rw [List.length_replicate]
    norm_num [ChunkSize]
  have hn : numChunks (List.replicate (2816 : Nat) (0 : Nat)) = 3 := by
    rw [numChunks_replicate 2816 0 (by norm_num [ChunkSize])]
    norm_num [chunkedDataLen, ChunkSize, chunkedHeaderLen]
  refine ⟨hb, ?_, by norm_num [chunkedDataLen, ChunkSize, chunkedHeaderLen]⟩
  rw [writeChunkedGo_eq _ _ hb (by omega) (by decide)]
  simp only [Except.map, gelfChunks, hn, List.length_map, List.length_range]

/-- Payload sizes carried by the framed chunks: chunk `k` carries
`min chunkedDataLen (len - k * chunkedDataLen)` payload bytes after its
12-byte header. -/
lemma gelfChunks_payload_lengths (b id : List Nat) (hid : id.length = 8) :
    (gelfChunks b id).map (fun ch => ch.length - chunkedHeaderLen) =
      (List.range (numChunks b)).map
        fun k => min chunkedDataLen (b.length - k * chunkedDataLen) := by
  simp only [gelfChunks, List.map_map]
  refine List.map_congr_left ?_
  intro k _
  simp only [Function.comp_apply, List.length_append, List.length_take, List.length_drop,
    magicChunked, hid, List.length_cons, List.length_nil, chunkedHeaderLen]
  omega

/-- C1 (amended): for every compressed payload longer than the
single-datagram capacity that fits in at most 255 chunks, the chunked path
splits it into exactly `L / 1408 + 1` chunks (floor division plus one), which
equals `ceil(L / 1408)` except when 1408 divides `L`, where one extra empty
chunk is emitted; in particular for `L = 3000` the three chunks carry 1408,
1408 and 184 payload bytes after their 12-byte headers. -/
theorem chunk_count_amended (b id : List Nat) (hb : ChunkSize < b.length)
    (hn : numChunks b ≤ 255) (hid : id.length = 8) :
    (∃ cs, writeChunkedGo b id = .ok cs ∧
        cs.length = b.length / chunkedDataLen + 1) ∧
    Except.map (List.map fun ch => ch.length - chunkedHeaderLen)
        (writeChunkedGo (List.replicate 3000 1) (List.replicate 8 2)) =
      .ok [1408, 1408, 184] := by
  constructor
  · refine ⟨gelfChunks b id, writeChunkedGo_eq b id hb hn hid, ?_⟩
    simp only [gelfChunks, List.length_map, List.length_range, numChunks_of_big b hb]
  · have hb3 : ChunkSize < (List.replicate 3000 1 : List Nat).length := by
      rw [List.length_replicate]
      norm_num [ChunkSize]
    have hn3 : numChunks (List.replicate (3000 : Nat) (1 : Nat)) = 3 := by
      rw [numChunks_replicate 3000 1 (by norm_num [ChunkSize])]
      norm_num [chunkedDataLen, ChunkSize, chunkedHeaderLen]
    rw [writeChunkedGo_eq _ _ hb3 (by omega) (by decide)]
    have hpl := gelfChunks_payload_lengths (List.replicate 3000 1) (List.replicate 8 2)
      (by decide)
    rw [hn3, List.length_replicate] at hpl
    simp only [Except.map, hpl]
    norm_num [List.range_succ, List.range_zero, chunkedDataLen, ChunkSize, chunkedHeaderLen]

/-- Witness for `chunk_count_amended` at a 2000-byte payload. -/
theorem chunk_count_amended_witness :
    ChunkSize < (List.replicate 2000 9 : List Nat).length ∧
    numChunks (List.replicate 2000 9) ≤ 255 ∧
    (List.replicate 8 3 : List Nat).length = 8 ∧
    ((∃ cs, writeChunkedGo (List.replicate 2000 9) (List.replicate 8 3) = .ok cs ∧
        cs.length = (List.replicate 2000 9 : List Nat).length / chunkedDataLen + 1) ∧
     Except.map (List.map fun ch => ch.length - chunkedHeaderLen)
        (writeChunkedGo (List.replicate 3000 1) (List.replicate 8 2)) =
      .ok [1408, 1408, 184]) := by
  have hb : ChunkSize < (List.replicate 2000 9 : List Nat).length := by
    rw [List.length_replicate]
    norm_num [ChunkSize]
  have hn : numChunks (List.replicate (2000 : Nat) (9 : Nat)) ≤ 255 := by
    rw [numChunks_replicate 2000 9 (by norm_num [ChunkSize])]
    norm_num [chunkedDataLen, ChunkSize, chunkedHeaderLen]
  exact ⟨hb, hn, by decide, chunk_count_amended _ _ hb hn (by decide)⟩

/-- C2: every chunk emitted by the chunked path is framed as the two magic
bytes, the 8-byte message id, the sequence-index byte and the total-count
byte followed by the payload slice; all chunks share the same id and total,
the sequence indices are exactly `0 .. count-1` in order, concatenating the
payload slices in that order reproduces the compressed payload byte for
byte, and the final chunk carries the unpadded remainder. -/
theorem chunked_framing (b id : List Nat) (hb : ChunkSize < b.length)
    (hn : numChunks b ≤ 255) (hid : id.length = 8) :
    writeChunkedGo b id =
      .ok ((List.range (numChunks b)).map fun k =>
        magicChunked ++ id ++ [k, numChunks b] ++
          ((b.drop (k * chunkedDataLen)).take chunkedDataLen)) ∧
    ((List.range (numChunks b)).map
        fun k => (b.drop (k * chunkedDataLen)).take chunkedDataLen).flatten = b ∧
    (∀ k, k + 1 < numChunks b →
      ((b.drop (k * chunkedDataLen)).take chunkedDataLen).length = chunkedDataLen) ∧
    (b.drop ((numChunks b - 1) * chunkedDataLen)).take chunkedDataLen =
      b.drop ((numChunks b - 1) * chunkedDataLen) := by
  have hc : chunkedDataLen = 1408 := rfl
  have hcs : ChunkSize = 1420 := rfl
  have hnb := numChunks_of_big b hb
  refine ⟨writeChunkedGo_eq b id hb hn hid, ?_, ?_, ?_⟩
  · rw [range_map_take_join]
    apply List.take_of_length_le
    rw [hnb, hc]
    rw [hc] at hnb
    omega
  · intro k hk
    rw [List.length_take, List.length_drop, hc]
    rw [hnb, hc] at hk
    omega
  · apply List.take_of_length_le
    rw [List.length_drop, hnb, hc]
    omega

/-- Witness for `chunked_framing` at a 1500-byte payload (two chunks). -/
theorem chunked_framing_witness :
    ChunkSize < (List.replicate 1500 4 : List Nat).length ∧
    numChunks (List.replicate 1500 4) ≤ 255 ∧
    (List.replicate 8 7 : List Nat).length = 8 ∧
    (writeChunkedGo (List.replicate 1500 4) (List.replicate 8 7) =
      .ok ((List.range (numChunks (List.replicate 1500 4))).map fun k =>
        magicChunked ++ List.replicate 8 7 ++ [k, numChunks (List.replicate 1500 4)] ++
          (((List.replicate 1500 4).drop (k * chunkedDataLen)).take chunkedDataLen)) ∧
    ((List.range (numChunks (List.replicate 1500 4))).map
        fun k => ((List.replicate 1500 4).drop (k * chunkedDataLen)).take
          chunkedDataLen).flatten = List.replicate 1500 4 ∧
    (∀ k, k + 1 < numChunks (List.replicate 1500 4) →
      (((List.replicate 1500 4).drop (k * chunkedDataLen)).take chunkedDataLen).length =
        chunkedDataLen) ∧
    ((List.replicate 1500 4).drop
        ((numChunks (List.replicate 1500 4) - 1) * chunkedDataLen)).take chunkedDataLen =
      (List.replicate 1500 4).drop
        ((numChunks (List.replicate 1500 4) - 1) * chunkedDataLen)) := by
  have hb : ChunkSize < (List.replicate 1500 4 : List Nat).length := by
    rw [List.length_replicate]
    norm_num [ChunkSize]
  have hn : numChunks (List.replicate (1500 : Nat) (4 : Nat)) ≤ 255 := by
    rw [numChunks_replicate 1500 4 (by norm_num [ChunkSize])]
    norm_num [chunkedDataLen, ChunkSize, chunkedHeaderLen]
  exact ⟨hb, hn, by decide, chunked_framing _ _ hb hn (by decide)⟩

/-- C3 counterexample: the claim says an oversize error occurs only for
`L > 255 * 1408 = 359040`, but at exactly `L = 359040` the code already
fails, computing `359040/1408 + 1 = 256 > 255` chunks. -/
theorem oversize_boundary_counterexample :
    writeChunkedGo (List.replicate 359040 0) (List.replicate 8 0) =
      .error (.oversize 256) ∧
    ¬ 255 * (ChunkSize - chunkedHeaderLen) < 359040 := by
  have hb : ChunkSize < (List.replicate 359040 0 : List Nat).length := by
    rw [List.length_replicate]
    norm_num [ChunkSize]
  have hn : numChunks (List.replicate (359040 : Nat) (0 : Nat)) = 256 := by
    rw [numChunks_replicate 359040 0 (by norm_num [ChunkSize])]
    norm_num [chunkedDataLen, ChunkSize, chunkedHeaderLen]
  constructor
  · simp only [writeChunkedGo, hn]
    norm_num
  · norm_num [ChunkSize, chunkedHeaderLen]

/-- C3 (amended): on the chunked path the call fails with the oversize error
iff the payload length is at least `255 * (C - 12) = 359040` (the code
computes `L/1408 + 1` chunks, so the boundary value `L = 359040` itself is
rejected). -/
theorem oversize_iff_amended (b id : List Nat) (hb : ChunkSize < b.length) :
    (∃ needed, writeChunkedGo b id = .error (.oversize needed)) ↔
      255 * (ChunkSize - chunkedHeaderLen) ≤ b.length := by
  have hc : chunkedDataLen = 1408 := rfl
  have hd : ChunkSize - chunkedHeaderLen = 1408 := rfl
  have hnb := numChunks_of_big b hb
  rw [hc] at hnb
  simp only [writeChunkedGo]
  by_cases h : 255 < numChunks b
  · have hge : 255 * (ChunkSize - chunkedHeaderLen) ≤ b.length := by
      rw [hd]
      rw [hnb] at h
      omega
    simp only [h, if_true, hge, iff_true]
    exact ⟨numChunks b, rfl⟩
  · have hlt : ¬ 255 * (ChunkSize - chunkedHeaderLen) ≤ b.length := by
      rw [hd]
      rw [hnb] at h
      omega
    simp only [h, if_false, hlt, iff_false]
    rintro ⟨needed, hcontra⟩
    split_ifs at hcontra <;> simp_all

/-- Witness for `oversize_iff_amended` at a 2000-byte payload (below the
bound, so no oversize error). -/
theorem oversize_iff_amended_witness :
    ChunkSize < (List.replicate 2000 0 : List Nat).length ∧
    ((∃ needed, writeChunkedGo (List.replicate 2000 0) (List.replicate 8 0) =
        .error (.oversize needed)) ↔
      255 * (ChunkSize - chunkedHeaderLen) ≤ (List.replicate 2000 0 : List Nat).length) := by
  have hb : ChunkSize < (List.replicate 2000 0 : List Nat).length := by
    rw [List.length_replicate]
    norm_num [ChunkSize]
  exact ⟨hb, oversize_iff_amended _ (List.replicate 8 0) hb⟩

/-! ## Codec lemmas -/

/-- Truncation toward zero is the identity on integral values, so the decode
conversions `int32(v.(float64))` / `int(v.(float64))` restore an encoded
integer field exactly. -/
lemma goTrunc_intCast (n : Int) : goTruncToInt ((n : ℚ)) = n := by
  simp only [goTruncToInt, Rat.num_intCast, Rat.den_intCast, Nat.div_one]
  split <;> omega

/-- Round-to-nearest-even fixes integers. -/
lemma rne_intCast (k : Int) : rne ((k : ℚ)) = k := by
  simp [rne]

/-- The float64 rounding fixes zero (the `v == 0` fast path of the model,
matching ParseFloat's exact zero). -/
lemma float64Round_zero : float64Round 0 = 0 := by
  simp [float64Round]

/-- On a positive natural number the floor-log2 helper computes `Nat.log2`. -/
lemma ratLog2Floor_natCast (n : Nat) (hn : n ≠ 0) :
    ratLog2Floor ((n : ℚ)) = (Nat.log2 n : Int) := by
  have h1 : ((n : ℚ)).num.natAbs = n := by
    rw [Rat.num_natCast, Int.natAbs_ofNat]
  have h2 : ((n : ℚ)).den = 1 := Rat.den_natCast n
  have h3 : Nat.log2 1 = 0 := by
    have := (Nat.log2_lt (by norm_num : (1 : ℕ) ≠ 0)).mpr (by norm_num : (1 : ℕ) < 2 ^ 1)
    omega
  unfold ratLog2Floor
  rw [h1, h2, h3]
  simp only [Nat.cast_zero, sub_zero, Int.toNat_natCast]
  rw [if_pos (Int.natCast_nonneg _), if_pos (by simpa using Nat.log2_self_le hn)]

/-- Unfolds the rounding on a positive rational in the normal range, once its
floor-log2 is known. -/
lemma float64Round_pos_eval (q : ℚ) (e : Int) (hq : 0 < q)
    (he : ratLog2Floor q = e) (he2 : -1022 ≤ e) :
    float64Round q =
      (rne (q * (2 : ℚ) ^ (-(e - 52))) : ℚ) * (2 : ℚ) ^ (e - 52) := by
  have hmax : max (e - 52) (-1074) = e - 52 := by omega
  unfold float64Round
  rw [if_neg hq.ne', if_neg (not_lt.2 hq.le), abs_of_pos hq, he, hmax]

/-- A rational whose scaled significand is already an integer is a binary64
value, so the rounding returns it unchanged. -/
lemma float64Round_eq_self (q : ℚ) (k : Int)
    (hk : |q| * (2 : ℚ) ^ (-(max (ratLog2Floor |q| - 52) (-1074))) = (k : ℚ)) :
    float64Round q = q := by
  by_cases h0 : q = 0
  · subst h0
    exact float64Round_zero
  · have hrestore : (k : ℚ) * (2 : ℚ) ^ (max (ratLog2Floor |q| - 52) (-1074)) = |q| := by
      rw [← hk, mul_assoc, ← zpow_add₀ (two_ne_zero : (2 : ℚ) ≠ 0), neg_add_cancel,
        zpow_zero, mul_one]
    unfold float64Round
    rw [if_neg h0, hk, rne_intCast, hrestore]
    by_cases hneg : q < 0
    · rw [if_pos hneg, abs_of_neg hneg, neg_neg]
    · rw [if_neg hneg, abs_of_nonneg (not_lt.1 hneg)]

/-- Every integer of absolute value at most `2^53` is exactly representable
in binary64, so the parse-time coercion leaves it unchanged.  (Go's `level`
is an `int32`, always within this range; `line` is within it for every
realistic source line.) -/
lemma float64Round_int_small (n : Int) (h : n.natAbs ≤ 2 ^ 53) :
    float64Round ((n : ℚ)) = (n : ℚ) := by
  by_cases h0 : n = 0
  · subst h0
    rw [Int.cast_zero]
    exact float64Round_zero
  · have ha0 : n.natAbs ≠ 0 := Int.natAbs_ne_zero.mpr h0
    have habs : |(n : ℚ)| = ((n.natAbs : ℕ) : ℚ) := by
      rw [Int.cast_natAbs, Int.cast_abs]
    have hlog : ratLog2Floor |(n : ℚ)| = (Nat.log2 n.natAbs : Int) := by
      rw [habs]
      exact ratLog2Floor_natCast _ ha0
    have hL : Nat.log2 n.natAbs ≤ 53 := by
      have := (Nat.log2_lt ha0).mpr (lt_of_le_of_lt h (by norm_num : (2:ℕ) ^ 53 < 2 ^ 54))
      omega
    rcases Nat.lt_or_ge (Nat.log2 n.natAbs) 53 with hc | hc
    · -- 53 significant bits or fewer: the significand scaled by 2^(52-L) is integral
      have hmax : max ((Nat.log2 n.natAbs : Int) - 52) (-1074) =
          (Nat.log2 n.natAbs : Int) - 52 := by omega
      have hexp : -((Nat.log2 n.natAbs : Int) - 52) = ((52 - Nat.log2 n.natAbs : ℕ) : Int) := by
        omega
      refine float64Round_eq_self _ ((n.natAbs * 2 ^ (52 - Nat.log2 n.natAbs) : ℕ) : Int) ?_
      rw [hlog, hmax, hexp, zpow_natCast, habs]
      push_cast
      rw [habs]
    · -- exactly 2^53: one halving lands on the even significand 2^52
      have hn53 : n.natAbs = 2 ^ 53 := by
        have := (Nat.le_log2 ha0).mp (by omega : 53 ≤ Nat.log2 n.natAbs)
        omega
      have hlog53 : Nat.log2 n.natAbs = 53 := by omega
      refine float64Round_eq_self _ ((2 ^ 52 : ℕ) : Int) ?_
      rw [hlog, hlog53, habs, hn53]
      push_cast
      have hmax1 : max (1 : Int) (-1074) = 1 := by omega
      rw [hmax1, zpow_neg, zpow_one]
      norm_num

/-- Folding the decode loop over the nine fixed-field pairs (with their
number values already coerced to float64 by the parse) assigns each fixed
field of the receiver: string fields directly, numeric fields through the
float64 value and the integer conversions, leaving the extension map
empty. -/
lemma unmarshalFields_fixed (V H S F : String) (T : ℚ) (L : Int) (Fa Fi : String)
    (Li : Int) (E : List (String × Json)) :
    unmarshalFields Message.zero
        ((fixedFields ⟨V, H, S, F, T, L, Fa, Fi, Li, E⟩).map fun p => (p.1, parseNumber p.2)) =
      .ok ⟨V, H, S, F, float64Round T, goTruncToInt (float64Round ((L : ℚ))), Fa, Fi,
        goTruncToInt (float64Round ((Li : ℚ))), []⟩ := rfl

/-- The decode loop distributes over list append, stopping at the first
panic. -/
lemma unmarshalFields_append (l1 l2 : List (String × Json)) :
    ∀ ms, unmarshalFields ms (l1 ++ l2) =
      match unmarshalFields ms l1 with
      | .error e => .error e
      | .ok m2 => unmarshalFields m2 l2 := by
  induction l1 with
  | nil => intro ms; simp [unmarshalFields]
  | cons p rest ih =>
    intro ms
    obtain ⟨k, v⟩ := p
    simp only [List.cons_append, unmarshalFields]
    cases applyKV ms k v with
    | error e => simp
    | ok m2 => simp [ih]

/-- Folding the decode loop over pairs whose keys all start with the byte
`'_'` appends every pair to the extension map and changes nothing else. -/
lemma unmarshalFields_underscore :
    ∀ (extras : List (String × Json)) (ms : Message),
      (∀ p ∈ extras, ∃ restc, p.1.data = '_' :: restc) →
      unmarshalFields ms extras = .ok { ms with Extra := ms.Extra ++ extras } := by
  intro extras
  induction extras with
  | nil => intro ms _; simp [unmarshalFields]
  | cons p rest ih =>
    intro ms hund
    obtain ⟨k, v⟩ := p
    obtain ⟨restc, hk⟩ := hund (k, v) (by simp)
    have hk2 : k.data = '_' :: restc := hk
    simp only [unmarshalFields, applyKV, hk2, if_true]
    rw [ih { ms with Extra := ms.Extra ++ [(k, v)] }
      (fun q hq => hund q (List.mem_cons_of_mem _ hq))]
    simp

/-! ## Concrete float64 evaluations -/

/-- Truncation of zero. -/
lemma goTruncToInt_zero : goTruncToInt 0 = 0 := by
  simp [goTruncToInt]

/-- Base-2 logarithm of `2^53 + 1`. -/
lemma log2_pow53_add_one : Nat.log2 9007199254740993 = 53 := by
  have hn : (9007199254740993 : ℕ) ≠ 0 := by norm_num
  have h1 : (53 : ℕ) ≤ Nat.log2 9007199254740993 :=
    (Nat.le_log2 hn).mpr (by norm_num)
  have h2 : Nat.log2 9007199254740993 < 54 :=
    (Nat.log2_lt hn).mpr (by norm_num)
  omega

/-- The float64 coercion of the parse rounds `2^53 + 1` (odd, 54 significant
bits) down to its even neighbour `2^53`: the concrete precision loss of
`strconv.ParseFloat` behind `json.Unmarshal`. -/
lemma float64Round_pow53_add_one :
    float64Round ((9007199254740993 : ℚ)) = (9007199254740992 : ℚ) := by
  have hcast : ((9007199254740993 : ℕ) : ℚ) = (9007199254740993 : ℚ) := by norm_num
  have hlog : ratLog2Floor ((9007199254740993 : ℚ)) = 53 := by
    rw [← hcast, ratLog2Floor_natCast _ (by norm_num), log2_pow53_add_one]
    norm_num
  rw [float64Round_pos_eval _ 53 (by norm_num) hlog (by norm_num)]
  have he : (53 : ℤ) - 52 = 1 := by norm_num
  rw [he]
  have hprod : (9007199254740993 : ℚ) * (2 : ℚ) ^ (-(1 : ℤ)) =
      (9007199254740993 : ℚ) / 2 := by
    rw [zpow_neg, zpow_one]
    ring
  rw [hprod]
  have hfl : ⌊(9007199254740993 : ℚ) / 2⌋ = 4503599627370496 := by
    rw [Int.floor_eq_iff]
    refine ⟨by norm_num, by norm_num⟩
  have hrne : rne ((9007199254740993 : ℚ) / 2) = 4503599627370496 := by
    unfold rne
    rw [hfl]
    have hfrac : (9007199254740993 : ℚ) / 2 - ((4503599627370496 : ℤ) : ℚ) = 1 / 2 := by
      push_cast
      norm_num
    rw [hfrac]
    norm_num
  rw [hrne, zpow_one]
  push_cast
  norm_num

/-- The same rounding fact in the integer-cast form the line field takes in
the encoded object. -/
lemma float64Round_pow53_add_one_intCast :
    float64Round (((9007199254740993 : Int)) : ℚ) = (((9007199254740992 : Int)) : ℚ) := by
  have h1 : (((9007199254740993 : Int)) : ℚ) = (9007199254740993 : ℚ) := by norm_num
  have h2 : (((9007199254740992 : Int)) : ℚ) = (9007199254740992 : ℚ) := by norm_num
  rw [h1, h2, float64Round_pow53_add_one]

/-! ## Claims C4, C5, C7, C10: the message codec -/

/-- C4 counterexample: with an empty extension map and line = 2^53 + 1, the
encoder writes the integer exactly but `json.Unmarshal` coerces it to
float64, rounding it to 2^53, so decode does not reconstruct the line field
and the universal exact-round-trip claim fails. -/
theorem roundtrip_line_rounding_counterexample :
    unmarshalMessage (some (marshalJSON
      (Message.mk "" "" "" "" 0 0 "" "" 9007199254740993 []))) =
      .ok (Message.mk "" "" "" "" 0 0 "" "" 9007199254740992 []) ∧
    (9007199254740993 : Int) ≠ 9007199254740992 := by
  constructor
  · have hm : marshalJSON (Message.mk "" "" "" "" 0 0 "" "" 9007199254740993 []) =
        fixedFields (Message.mk "" "" "" "" 0 0 "" "" 9007199254740993 []) := rfl
    simp only [unmarshalMessage, hm, unmarshalFields_fixed, Int.cast_zero,
      float64Round_zero, float64Round_pow53_add_one_intCast, goTruncToInt_zero,
      goTrunc_intCast]
  · decide

/-- C4 (amended): for every message whose extension map is empty, whose
timestamp is exactly representable in binary64 (as every value the program
stores in its Go float64 field is), and whose level and line fields have
absolute value at most 2^53 (always true for the int32 level field), decoding
the encoded object reconstructs every fixed field (version, host,
short_message, full_message, timestamp, level, facility, file, line)
exactly. -/
theorem roundtrip_fixed_fields_amended (m : Message) (hE : m.Extra = [])
    (hT : float64Round m.TimeUnix = m.TimeUnix)
    (hL : m.Level.natAbs ≤ 2 ^ 53) (hLi : m.Line.natAbs ≤ 2 ^ 53) :
    unmarshalMessage (some (marshalJSON m)) = .ok m := by
  obtain ⟨V, H, S, F, T, L, Fa, Fi, Li, E⟩ := m
  dsimp only at hE hT hL hLi
  subst hE
  have hm : marshalJSON ⟨V, H, S, F, T, L, Fa, Fi, Li, []⟩ =
      fixedFields ⟨V, H, S, F, T, L, Fa, Fi, Li, []⟩ := by
    simp [marshalJSON]
  simp only [unmarshalMessage, hm, unmarshalFields_fixed, hT,
    float64Round_int_small L hL, float64Round_int_small Li hLi, goTrunc_intCast]

/-- Witness for `roundtrip_fixed_fields_amended` on a concrete message. -/
theorem roundtrip_fixed_fields_amended_witness :
    ((Message.mk "1.0" "example.org" "short" "full text" (((3 : Int)) : ℚ) 6 "facility"
        "main.go" 42 []).Extra = [] ∧
     float64Round (Message.mk "1.0" "example.org" "short" "full text" (((3 : Int)) : ℚ) 6
        "facility" "main.go" 42 []).TimeUnix =
       (Message.mk "1.0" "example.org" "short" "full text" (((3 : Int)) : ℚ) 6 "facility"
        "main.go" 42 []).TimeUnix ∧
     (Message.mk "1.0" "example.org" "short" "full text" (((3 : Int)) : ℚ) 6 "facility"
        "main.go" 42 []).Level.natAbs ≤ 2 ^ 53 ∧
     (Message.mk "1.0" "example.org" "short" "full text" (((3 : Int)) : ℚ) 6 "facility"
        "main.go" 42 []).Line.natAbs ≤ 2 ^ 53) ∧
    unmarshalMessage (some (marshalJSON (Message.mk "1.0" "example.org" "short"
      "full text" (((3 : Int)) : ℚ) 6 "facility" "main.go" 42 []))) =
      .ok (Message.mk "1.0" "example.org" "short" "full text" (((3 : Int)) : ℚ) 6
        "facility" "main.go" 42 []) := by
  have hT : float64Round (((3 : Int)) : ℚ) = (((3 : Int)) : ℚ) :=
    float64Round_int_small 3 (by decide)
  have hL : (6 : Int).natAbs ≤ 2 ^ 53 := by decide
  have hLi : (42 : Int).natAbs ≤ 2 ^ 53 := by decide
  exact ⟨⟨rfl, hT, hL, hLi⟩, roundtrip_fixed_fields_amended _ rfl hT hL hLi⟩

/-- C5 counterexample: the round trip fails for extension mappings the claim
covers, in two ways.  A key that collides with no fixed-field name but does
not start with the `'_'` byte is silently dropped (the routing loop sends
only `'_'`-prefixed keys to the extension map); and even under a `'_'` key an
integer value of 2^53 + 1 comes back as 2^53, changed by the float64 coercion
of the parse. -/
theorem extras_no_underscore_counterexample :
    unmarshalMessage (some (marshalJSON
      (Message.mk "1.0" "h" "s" "f" 0 0 "fac" "g.go" 0 [("foo", Json.null)]))) =
      .ok (Message.mk "1.0" "h" "s" "f" 0 0 "fac" "g.go" 0 []) ∧
    "foo" ∉ ["version", "host", "short_message", "full_message", "timestamp",
      "level", "facility", "file", "line"] ∧
    ([("foo", Json.null)] : List (String × Json)) ≠ [] ∧
    unmarshalMessage (some (marshalJSON
      (Message.mk "" "" "" "" 0 0 "" "" 0 [("_big", Json.num 9007199254740993)]))) =
      .ok (Message.mk "" "" "" "" 0 0 "" "" 0 [("_big", Json.num 9007199254740992)]) ∧
    [("_big", Json.num (9007199254740993 : ℚ))] ≠
      [("_big", Json.num (9007199254740992 : ℚ))] := by
  refine ⟨by decide, by decide, by decide, ?_, by decide⟩
  have hmap : (marshalJSON (Message.mk "" "" "" "" 0 0 "" "" 0
        [("_big", Json.num 9007199254740993)])).map (fun p => (p.1, parseNumber p.2)) =
      [("version", Json.str ""), ("host", Json.str ""), ("short_message", Json.str ""),
       ("full_message", Json.str ""), ("timestamp", Json.num (float64Round 0)),
       ("level", Json.num (float64Round ((0 : Int) : ℚ))),
       ("facility", Json.str ""), ("file", Json.str ""),
       ("line", Json.num (float64Round ((0 : Int) : ℚ))),
       ("_big", Json.num (float64Round 9007199254740993))] := rfl
  simp only [unmarshalMessage]
  rw [hmap, float64Round_pow53_add_one]
  rfl

/-- C5 (amended): for every message and every non-empty extension mapping
(distinct keys) whose keys all begin with the `'_'` byte — the convention the
decoder routes on, which also rules out collision with the fixed-field
names — and whose values are unchanged by the parse-time float64 coercion
(every non-numeric value is; a numeric value is iff it is exactly
representable in binary64), decoding the encoded object yields exactly those
key/value pairs, unchanged. -/
theorem extras_roundtrip_amended (m : Message) (hne : m.Extra ≠ [])
    (hund : ∀ p ∈ m.Extra, ∃ restc, p.1.data = '_' :: restc)
    (hnodup : (m.Extra.map Prod.fst).Nodup)
    (hval : ∀ p ∈ m.Extra, parseNumber p.2 = p.2) :
    ∃ m2, unmarshalMessage (some (marshalJSON m)) = .ok m2 ∧ m2.Extra = m.Extra := by
  obtain ⟨V, H, S, F, T, L, Fa, Fi, Li, E⟩ := m
  dsimp only at hne hund hval ⊢
  have hm : marshalJSON ⟨V, H, S, F, T, L, Fa, Fi, Li, E⟩ =
      fixedFields ⟨V, H, S, F, T, L, Fa, Fi, Li, E⟩ ++ E := by
    unfold marshalJSON
    rw [if_neg]
    simpa using hne
  have hmapE : E.map (fun p => (p.1, parseNumber p.2)) = E := by
    have hcong : ∀ p ∈ E, (fun p => (p.1, parseNumber p.2)) p = id p := by
      intro p hp
      simp [hval p hp]
    rw [List.map_congr_left hcong, List.map_id]
  have hfold := unmarshalFields_underscore E
    ⟨V, H, S, F, float64Round T, goTruncToInt (float64Round ((L : ℚ))), Fa, Fi,
      goTruncToInt (float64Round ((Li : ℚ))), []⟩ hund
  refine ⟨⟨V, H, S, F, float64Round T, goTruncToInt (float64Round ((L : ℚ))), Fa, Fi,
    goTruncToInt (float64Round ((Li : ℚ))), E⟩, ?_, rfl⟩
  simp only [unmarshalMessage, hm, List.map_append, hmapE, unmarshalFields_append,
    unmarshalFields_fixed]
  simp only [hfold]
  simp

/-- Witness for `extras_roundtrip_amended` on a concrete message with two
underscore extension pairs (one numeric value exactly representable, one
string value). -/
theorem extras_roundtrip_amended_witness :
    ((Message.mk "1.0" "h" "s" "f" 0 6 "fac" "g.go" 7
        [("_a", Json.num 0), ("_b", Json.str "x")]).Extra ≠ [] ∧
     (∀ p ∈ (Message.mk "1.0" "h" "s" "f" 0 6 "fac" "g.go" 7
        [("_a", Json.num 0), ("_b", Json.str "x")]).Extra,
        ∃ restc, p.1.data = '_' :: restc) ∧
     ((Message.mk "1.0" "h" "s" "f" 0 6 "fac" "g.go" 7
        [("_a", Json.num 0), ("_b", Json.str "x")]).Extra.map Prod.fst).Nodup ∧
     (∀ p ∈ (Message.mk "1.0" "h" "s" "f" 0 6 "fac" "g.go" 7
        [("_a", Json.num 0), ("_b", Json.str "x")]).Extra, parseNumber p.2 = p.2)) ∧
    (∃ m2, unmarshalMessage (some (marshalJSON (Message.mk "1.0" "h" "s" "f" 0 6 "fac"
        "g.go" 7 [("_a", Json.num 0), ("_b", Json.str "x")]))) = .ok m2 ∧
      m2.Extra = (Message.mk "1.0" "h" "s" "f" 0 6 "fac" "g.go" 7
        [("_a", Json.num 0), ("_b", Json.str "x")]).Extra) := by
  have h1 : (Message.mk "1.0" "h" "s" "f" 0 6 "fac" "g.go" 7
      [("_a", Json.num 0), ("_b", Json.str "x")]).Extra ≠ [] := by decide
  have h2 : ∀ p ∈ (Message.mk "1.0" "h" "s" "f" 0 6 "fac" "g.go" 7
      [("_a", Json.num 0), ("_b", Json.str "x")]).Extra,
      ∃ restc, p.1.data = '_' :: restc := by
    intro p hp
    simp only [List.mem_cons, List.not_mem_nil, or_false] at hp
    rcases hp with rfl | rfl
    · exact ⟨['a'], rfl⟩
    · exact ⟨['b'], rfl⟩
  have h3 : ((Message.mk "1.0" "h" "s" "f" 0 6 "fac" "g.go" 7
      [("_a", Json.num 0), ("_b", Json.str "x")]).Extra.map Prod.fst).Nodup := by decide
  have h4 : ∀ p ∈ (Message.mk "1.0" "h" "s" "f" 0 6 "fac" "g.go" 7
      [("_a", Json.num 0), ("_b", Json.str "x")]).Extra, parseNumber p.2 = p.2 := by
    intro p hp
    simp only [List.mem_cons, List.not_mem_nil, or_false] at hp
    rcases hp with rfl | rfl
    · simp [parseNumber, float64Round_zero]
    · rfl
  exact ⟨⟨h1, h2, h3, h4⟩, extras_roundtrip_amended _ h1 h2 h3 h4⟩

/-- C7 counterexample: a recognised fixed-field key holding a value of the
wrong type (here `version` holding a number) makes decode abort with a failed
type assertion — a runtime panic — which is not an error return. -/
theorem type_mismatch_counterexample :
    unmarshalMessage (some [("version", Json.num 3)]) = .panicked .typeAssert ∧
    DecodeOutcome.panicked .typeAssert ≠ .errReturn :=
  ⟨rfl, by decide⟩

/-- C7 (amended): on malformed JSON the parse error is returned to the
caller; but a recognised fixed-field key holding a wrong-typed value (a
string field holding a non-string, or timestamp/level holding a non-number)
makes decode panic through the failed type assertion instead of returning an
error. -/
theorem decode_failure_amended :
    unmarshalMessage none = .errReturn ∧
    (∀ v : Json, (∀ s, v ≠ .str s) →
      unmarshalMessage (some [("version", v)]) = .panicked .typeAssert) ∧
    (∀ v : Json, (∀ q : ℚ, v ≠ .num q) →
      unmarshalMessage (some [("timestamp", v)]) = .panicked .typeAssert) ∧
    (∀ v : Json, (∀ q : ℚ, v ≠ .num q) →
      unmarshalMessage (some [("level", v)]) = .panicked .typeAssert) := by
  refine ⟨rfl, ?_, ?_, ?_⟩
  · intro v hv
    cases v with
    | str s => exact absurd rfl (hv s)
    | num _ => rfl
    | bool _ => rfl
    | null => rfl
  · intro v hv
    cases v with
    | num q => exact absurd rfl (hv q)
    | str _ => rfl
    | bool _ => rfl
    | null => rfl
  · intro v hv
    cases v with
    | num q => exact absurd rfl (hv q)
    | str _ => rfl
    | bool _ => rfl
    | null => rfl

/-- Witness for `decode_failure_amended` at concrete wrong-typed values. -/
theorem decode_failure_amended_witness :
    unmarshalMessage none = .errReturn ∧
    unmarshalMessage (some [("version", Json.bool true)]) = .panicked .typeAssert ∧
    unmarshalMessage (some [("timestamp", Json.str "x")]) = .panicked .typeAssert ∧
    unmarshalMessage (some [("level", Json.null)]) = .panicked .typeAssert :=
  ⟨decode_failure_amended.1,
   decode_failure_amended.2.1 (Json.bool true) (fun _ h => Json.noConfusion h),
   decode_failure_amended.2.2.1 (Json.str "x") (fun _ h => Json.noConfusion h),
   decode_failure_amended.2.2.2 Json.null (fun _ h => Json.noConfusion h)⟩

/-- C10: decoding a well-formed object that contains the empty string as a
key neither returns normally nor returns an error: the key-routing step
`k[0]` indexes the empty key out of bounds and panics. -/
theorem empty_key_panics :
    unmarshalMessage (some [("", Json.null)]) = .panicked .emptyKeyIndex ∧
    (∀ m, DecodeOutcome.panicked .emptyKeyIndex ≠ .ok m) ∧
    DecodeOutcome.panicked .emptyKeyIndex ≠ .errReturn :=
  ⟨rfl, fun _ h => DecodeOutcome.noConfusion h, by decide⟩

/-! ## Claims C6, C8, C9: transports and locking -/

/-- C6: for every compression-type value other than the three recognised
variants, the UDP `WriteMessage` fails on the `default: panic(...)` arm of
the compression switch — the fatal configuration fault — and hands no bytes
at all to the socket. -/
theorem unknown_compression_no_write (gzipC zlibC : List Nat → List Nat) (t : Int)
    (mBytes msgId : List Nat) (h0 : t ≠ CompressGzip) (h1 : t ≠ CompressZlib)
    (h2 : t ≠ NoCompress) :
    udpWriteMessage gzipC zlibC t mBytes msgId = (.configPanic t, []) := by
  unfold udpWriteMessage
  rw [if_neg (by simp [h0, h1, h2])]

/-- Witness for `unknown_compression_no_write` at compression type 5. -/
theorem unknown_compression_no_write_witness :
    ((5 : Int) ≠ CompressGzip ∧ (5 : Int) ≠ CompressZlib ∧ (5 : Int) ≠ NoCompress) ∧
    udpWriteMessage (fun b => b) (fun b => b) 5 [1, 2, 3] (List.replicate 8 0) =
      (.configPanic 5, []) :=
  ⟨⟨by decide, by decide, by decide⟩,
   unknown_compression_no_write _ _ _ _ _ (by decide) (by decide) (by decide)⟩

/-- C8 (code bug): when `client.Post` returns a transport-level error the
response is nil, so the unconditional `response.Body.Close()` dereferences a
nil pointer and panics — the body is not closed and the call does not
return; only the success path closes the body exactly once. -/
theorem http_nil_body_close_bug :
    httpWriteMessage true false = .nilPanic ∧
    httpWriteMessage true true = .okReturn 1 ∧
    HttpOutcome.nilPanic ≠ .okReturn 1 := by decide

/-- C9 counterexample: a concrete `Writer.WriteMessage` invocation emits a
datagram on the wire yet performs no lock acquisition at all — the `mu`
mutex field of `Writer` is never locked on the write path — contradicting
the claim that every invocation holds a mutual-exclusion lock around the
send sequence. -/
theorem no_lock_counterexample :
    (writerWriteMessage (fun b => b) (fun b => b) NoCompress [1, 2, 3]
        (List.replicate 8 0)).2 = [WireEvent.datagram [1, 2, 3]] ∧
    WireEvent.lockAcquire ∉ (writerWriteMessage (fun b => b) (fun b => b) NoCompress
        [1, 2, 3] (List.replicate 8 0)).2 ∧
    WireEvent.lockRelease ∉ (writerWriteMessage (fun b => b) (fun b => b) NoCompress
        [1, 2, 3] (List.replicate 8 0)).2 := by decide

/-- C9 (amended): no invocation of `Writer.WriteMessage` acquires or releases
any lock: the `mu` field is unused on this path, so the writer provides no
mutual exclusion and concurrent calls are not serialised by it. -/
theorem no_lock_amended (gzipC zlibC : List Nat → List Nat) (t : Int)
    (mBytes msgId : List Nat) :
    WireEvent.lockAcquire ∉ (writerWriteMessage gzipC zlibC t mBytes msgId).2 ∧
    WireEvent.lockRelease ∉ (writerWriteMessage gzipC zlibC t mBytes msgId).2 := by
  unfold writerWriteMessage
  constructor <;> simp [List.mem_map]
